import Mathlib

/-!
Verification of the FinSight portfolio-analytics core (src/app.py).

The analytics kernel of the application is embedded shallowly:
pandas/numpy float series are modelled as lists of exact rationals
(`List ℚ`), matrices as lists of rows, and the handful of expressions that
involve a square root are interpreted in the exact reals.  Degenerate float
outcomes (NaN / ±inf) of the one unguarded division in the code are modelled
by an explicit classification type.  Every definition mirrors the
corresponding expression in src/app.py; pandas defaults that the code relies
on (ddof=1 for `.std()`, linear interpolation for `np.percentile`, skipna
sums/means) are made explicit in the embedding.
-/

namespace FinSight

/-- Arithmetic mean of a series, as computed by pandas `Series.mean()`.
For the empty series pandas yields NaN; the claims only use nonempty
series, where the embedding is exact. -/
def mean (l : List ℚ) : ℚ := l.sum / (l.length : ℚ)

/-- Sample variance with ddof = 1, the default of pandas `Series.var()` /
the square of `Series.std()`.  For series of length < 2 pandas yields NaN;
call sites treating that case handle it explicitly. -/
def sampleVar (l : List ℚ) : ℚ :=
  (l.map (fun x => (x - mean l) ^ 2)).sum / ((l.length : ℚ) - 1)

/-- Ascending sort of a series (what `np.percentile` performs internally). -/
def sortAsc (l : List ℚ) : List ℚ := l.insertionSort (· ≤ ·)

/-- `np.percentile(xs, q)` with the default linear-interpolation method:
position `(n-1) * q / 100` between the ascending order statistics, linear
interpolation between the two neighbouring ones. -/
def percentile (xs : List ℚ) (q : ℚ) : ℚ :=
  let s := sortAsc xs
  let pos : ℚ := ((s.length : ℚ) - 1) * q / 100
  let i : ℕ := (⌊pos⌋).toNat
  let lo := s.getD i 0
  let hi := s.getD (i + 1) lo
  lo + (pos - (i : ℚ)) * (hi - lo)

/-- `calculate_var` from src/app.py (lines 52-53):
`np.percentile(returns, 100 * (1 - confidence_level))`. -/
def calculate_var (returns : List ℚ) (confidence_level : ℚ) : ℚ :=
  percentile returns (100 * (1 - confidence_level))

/-- Default `confidence_level=0.95` of `calculate_var` in src/app.py. -/
def default_confidence_level : ℚ := 95 / 100

/-- Default `risk_free_rate=0.02` of `calculate_sharpe` in src/app.py. -/
def default_risk_free_rate : ℚ := 2 / 100

/-- Running cumulative sums starting from `acc` (helper for `cumsum`). -/
def cumsumFrom (acc : ℚ) : List ℚ → List ℚ
  | [] => []
  | x :: xs => (acc + x) :: cumsumFrom (acc + x) xs

/-- pandas `Series.cumsum()`: the series of partial sums, same length as
the input. -/
def cumsum (l : List ℚ) : List ℚ := cumsumFrom 0 l

/-- Minimum of a series, as computed by pandas `Series.min()` (junk value 0
on the empty series, where pandas yields NaN). -/
def listMin : List ℚ → ℚ
  | [] => 0
  | x :: xs => xs.foldl min x

/-- The "Max Drawdown" metric of src/app.py (lines 160-161):
`ticker_returns.cumsum().min()`. -/
def max_drawdown (returns : List ℚ) : ℚ := listMin (cumsum returns)

/-! ### Helper lemmas about the list kernel -/

lemma cumsumFrom_eq_map (l : List ℚ) :
    ∀ acc : ℚ, cumsumFrom acc l =
      (List.range l.length).map (fun t => acc + (l.take (t + 1)).sum) := by
  induction l with
  | nil => intro acc; simp [cumsumFrom]
  | cons x xs ih =>
    intro acc
    simp only [cumsumFrom, List.length_cons, List.range_succ_eq_map, List.map_cons,
      List.map_map, ih (acc + x), List.cons.injEq]
    refine ⟨by simp, ?_⟩
    apply List.map_congr_left
    intro t _
    simp [Function.comp, List.take_succ_cons, add_assoc]

lemma foldl_min_mem (xs : List ℚ) : ∀ x : ℚ, xs.foldl min x ∈ x :: xs := by
  induction xs with
  | nil => intro x; simp
  | cons y ys ih =>
    intro x
    have h := ih (min x y)
    rw [List.mem_cons] at h
    rw [List.foldl_cons, List.mem_cons, List.mem_cons]
    rcases h with h | h
    · rcases min_choice x y with hc | hc
      · exact Or.inl (h.trans hc)
      · exact Or.inr (Or.inl (h.trans hc))
    · exact Or.inr (Or.inr h)

lemma foldl_min_le (xs : List ℚ) : ∀ x y : ℚ, y ∈ x :: xs → xs.foldl min x ≤ y := by
  induction xs with
  | nil =>
    intro x y hy
    rw [List.mem_singleton] at hy
    subst hy
    exact le_refl _
  | cons z zs ih =>
    intro x y hy
    rw [List.foldl_cons]
    rw [List.mem_cons, List.mem_cons] at hy
    rcases hy with h | h | h
    · subst h; exact le_trans (ih _ _ (List.mem_cons_self _ _)) (min_le_left _ _)
    · subst h; exact le_trans (ih _ _ (List.mem_cons_self _ _)) (min_le_right _ _)
    · exact ih (min x z) y (List.mem_cons_of_mem _ h)

lemma listMin_mem (l : List ℚ) (h : l ≠ []) : listMin l ∈ l := by
  cases l with
  | nil => exact absurd rfl h
  | cons x xs => exact foldl_min_mem xs x

lemma listMin_le (l : List ℚ) (y : ℚ) (hy : y ∈ l) : listMin l ≤ y := by
  cases l with
  | nil => simp at hy
  | cons x xs => exact foldl_min_le xs x y hy

lemma cumsum_eq_map (rs : List ℚ) :
    cumsum rs = (List.range rs.length).map (fun t => (rs.take (t + 1)).sum) := by
  rw [cumsum, cumsumFrom_eq_map]
  simp

/-- C2: `calculate_var` at the default confidence level 0.95 is the 5th
empirical percentile with linear interpolation between order statistics;
on the series [-0.05, -0.02, 0.00, 0.01, 0.03] it equals -0.044. -/
theorem calculate_var_linear_percentile :
    calculate_var [-1/20, -1/50, 0, 1/100, 3/100] default_confidence_level = -11/250 ∧
      ∀ returns : List ℚ,
        calculate_var returns default_confidence_level = percentile returns 5 := by
  constructor
  · norm_num [calculate_var, default_confidence_level, percentile, sortAsc,
      List.insertionSort, List.orderedInsert]
  · intro returns
    have h5 : (100 : ℚ) * (1 - default_confidence_level) = 5 := by
      norm_num [default_confidence_level]
    rw [calculate_var, h5]

/-- C4: for every non-empty return series, the reported max drawdown is the
minimum over t of the cumulative sum of the returns up to day t. -/
theorem max_drawdown_is_min_cumsum (rs : List ℚ) (h : rs ≠ []) :
    (∃ t, t < rs.length ∧ max_drawdown rs = (rs.take (t + 1)).sum) ∧
      ∀ t, t < rs.length → max_drawdown rs ≤ (rs.take (t + 1)).sum := by
  have hne : cumsum rs ≠ [] := by
    rw [cumsum_eq_map]
    have hlen : rs.length ≠ 0 := fun hl => h (List.length_eq_zero.mp hl)
    simp [List.range_eq_nil, hlen]
  constructor
  · have hm : max_drawdown rs ∈ cumsum rs := listMin_mem _ hne
    rw [cumsum_eq_map, List.mem_map] at hm
    obtain ⟨t, ht, he⟩ := hm
    exact ⟨t, List.mem_range.mp ht, he.symm⟩
  · intro t ht
    apply listMin_le
    rw [cumsum_eq_map]
    exact List.mem_map_of_mem _ (List.mem_range.mpr ht)

/-- Witness for C4 at the concrete series [1, -2, 3]. -/
theorem max_drawdown_is_min_cumsum_witness :
    ([1, -2, 3] : List ℚ) ≠ [] ∧
      ((∃ t, t < ([1, -2, 3] : List ℚ).length ∧
          max_drawdown [1, -2, 3] = (([1, -2, 3] : List ℚ).take (t + 1)).sum) ∧
        ∀ t, t < ([1, -2, 3] : List ℚ).length →
          max_drawdown [1, -2, 3] ≤ (([1, -2, 3] : List ℚ).take (t + 1)).sum) :=
  ⟨by simp, max_drawdown_is_min_cumsum [1, -2, 3] (by simp)⟩

/-! ### Sharpe ratio (src/app.py lines 48-50) and portfolio metrics (lines 95-103) -/

/-- `calculate_sharpe` from src/app.py (lines 48-50):
`np.sqrt(252) * excess_returns.mean() / returns.std()` where
`excess_returns = returns - risk_free_rate/252`.  pandas `.std()` is the
ddof=1 sample standard deviation, i.e. the square root of `sampleVar`;
the float expression is interpreted in exact real arithmetic. -/
noncomputable def calculate_sharpe (returns : List ℚ) (risk_free_rate : ℚ) : ℝ :=
  Real.sqrt 252 * ((mean (returns.map (fun x => x - risk_free_rate / 252)) : ℚ) : ℝ) /
    Real.sqrt ((sampleVar returns : ℚ) : ℝ)

lemma sum_map_sub_const (l : List ℚ) (c : ℚ) :
    (l.map (fun x => x - c)).sum = l.sum - l.length * c := by
  induction l with
  | nil => simp
  | cons x xs ih =>
    simp only [List.map_cons, List.sum_cons, ih, List.length_cons]
    push_cast
    ring

lemma mean_map_sub_const (l : List ℚ) (c : ℚ) (h : l ≠ []) :
    mean (l.map (fun x => x - c)) = mean l - c := by
  have hn : (l.length : ℚ) ≠ 0 :=
    Nat.cast_ne_zero.mpr (fun hl => h (List.length_eq_zero.mp hl))
  rw [mean, mean, List.length_map, sum_map_sub_const]
  field_simp

/-- Per-day cross-sectional mean across tickers: `returns.mean(axis=1)`
in src/app.py (lines 95-97, 103).  A matrix is the list of its rows
(one row of per-ticker returns per day). -/
def rowMeans (m : List (List ℚ)) : List ℚ := m.map mean

/-- Annualized return of a single series: `mean(daily returns) * 252`. -/
def annualized_return (rs : List ℚ) : ℚ := mean rs * 252

/-- Annualized volatility of a single series: `std(daily returns) * sqrt(252)`. -/
noncomputable def annualized_volatility (rs : List ℚ) : ℝ :=
  Real.sqrt ((sampleVar rs : ℚ) : ℝ) * Real.sqrt 252

/-- src/app.py line 95: `returns.mean(axis=1).mean() * 252`. -/
def portfolio_return (m : List (List ℚ)) : ℚ := mean (rowMeans m) * 252

/-- src/app.py line 96: `returns.mean(axis=1).std() * np.sqrt(252)`. -/
noncomputable def portfolio_volatility (m : List (List ℚ)) : ℝ :=
  Real.sqrt ((sampleVar (rowMeans m) : ℚ) : ℝ) * Real.sqrt 252

/-- src/app.py line 97: `calculate_sharpe(returns.mean(axis=1))`. -/
noncomputable def portfolio_sharpe (m : List (List ℚ)) : ℝ :=
  calculate_sharpe (rowMeans m) default_risk_free_rate

/-- src/app.py line 103: `calculate_var(returns.mean(axis=1))`. -/
def portfolio_var (m : List (List ℚ)) : ℚ :=
  calculate_var (rowMeans m) default_confidence_level

/-- The share-weighted daily combination that the spec contrasts with the
implementation: each day's portfolio return as the weights-weighted average
of the per-ticker returns.  This definition follows the spec's words only,
for comparison; the code does not compute it. -/
def share_weighted_means (shareWeights : List ℚ) (m : List (List ℚ)) : List ℚ :=
  m.map (fun day => (List.zipWith (· * ·) shareWeights day).sum / shareWeights.sum)

/-- C1: the Sharpe ratio is sqrt(252) times the mean of
(returns - risk_free_rate/252), divided by the ddof=1 sample standard
deviation of the returns; the default risk-free rate is 0.02. -/
theorem calculate_sharpe_formula (returns : List ℚ) (risk_free_rate : ℚ)
    (h : returns ≠ []) :
    calculate_sharpe returns risk_free_rate =
      Real.sqrt 252 * ((mean returns - risk_free_rate / 252 : ℚ) : ℝ) /
        Real.sqrt (((returns.map (fun x => (x - mean returns) ^ 2)).sum /
          ((returns.length : ℚ) - 1) : ℚ) : ℝ) ∧
      default_risk_free_rate = 2 / 100 := by
  refine ⟨?_, rfl⟩
  rw [calculate_sharpe, mean_map_sub_const returns _ h]
  rfl

/-- Witness for C1 at the concrete series [1, 2]. -/
theorem calculate_sharpe_formula_witness :
    ([1, 2] : List ℚ) ≠ [] ∧
      (calculate_sharpe [1, 2] (2 / 100) =
        Real.sqrt 252 * ((mean [1, 2] - (2 / 100) / 252 : ℚ) : ℝ) /
          Real.sqrt (((([1, 2] : List ℚ).map (fun x => (x - mean [1, 2]) ^ 2)).sum /
            ((([1, 2] : List ℚ).length : ℚ) - 1) : ℚ) : ℝ) ∧
        default_risk_free_rate = 2 / 100) :=
  ⟨by simp, calculate_sharpe_formula [1, 2] (2 / 100) (by simp)⟩

/-- C3: every portfolio-level statistic is the corresponding single-series
statistic applied to the per-day equal-weighted (cross-sectional mean)
series, whose entries are plain averages of each day's row - not the
share-weighted combination, from which it differs already on a one-day,
two-ticker example with shares (1, 3). -/
theorem portfolio_metrics_equal_weighted (m : List (List ℚ)) :
    portfolio_return m = annualized_return (rowMeans m) ∧
      portfolio_volatility m = annualized_volatility (rowMeans m) ∧
      portfolio_sharpe m = calculate_sharpe (rowMeans m) default_risk_free_rate ∧
      portfolio_var m = calculate_var (rowMeans m) default_confidence_level ∧
      rowMeans m = m.map (fun day => day.sum / (day.length : ℚ)) ∧
      rowMeans [[0, 1]] ≠ share_weighted_means [1, 3] [[0, 1]] := by
  refine ⟨rfl, rfl, rfl, rfl, rfl, ?_⟩
  norm_num [rowMeans, share_weighted_means, mean]

/-! ### Degenerate inputs to the Sharpe ratio (C7)

`calculate_sharpe` divides by `returns.std()` without any guard.  Under
IEEE-754 float semantics the classification of its result is determined
exactly: `.std()` (ddof=1) is NaN for fewer than two observations, making
the whole expression NaN; for a zero standard deviation the division
`x / 0.0` yields +inf for x > 0, -inf for x < 0 and NaN for x = 0, and the
positive factor sqrt(252) does not change the classification. -/

/-- IEEE-754 classification of a float result. -/
inductive FloatClass where
  | nan : FloatClass
  | posInf : FloatClass
  | negInf : FloatClass
  | finiteVal : FloatClass
  deriving DecidableEq

/-- Classification of the float value computed by `calculate_sharpe` in
src/app.py (lines 48-50), by the IEEE rules listed above: the sign tests
are on the exact value of `excess_returns.mean()`. -/
def sharpe_float_class (returns : List ℚ) (risk_free_rate : ℚ) : FloatClass :=
  if returns.length < 2 then FloatClass.nan
  else if sampleVar returns = 0 then
    if 0 < mean (returns.map (fun x => x - risk_free_rate / 252)) then FloatClass.posInf
    else if mean (returns.map (fun x => x - risk_free_rate / 252)) < 0 then FloatClass.negInf
    else FloatClass.nan
  else FloatClass.finiteVal

lemma sum_of_all_eq (l : List ℚ) (c : ℚ) (h : ∀ x ∈ l, x = c) :
    l.sum = l.length * c := by
  induction l with
  | nil => simp
  | cons x xs ih =>
    have hx : x = c := h x (List.mem_cons_self _ _)
    have hxs := ih (fun y hy => h y (List.mem_cons_of_mem _ hy))
    simp only [List.sum_cons, hx, hxs, List.length_cons]
    push_cast
    ring

lemma mean_of_all_eq (l : List ℚ) (c : ℚ) (hne : l ≠ []) (h : ∀ x ∈ l, x = c) :
    mean l = c := by
  have hn : (l.length : ℚ) ≠ 0 :=
    Nat.cast_ne_zero.mpr (fun hl => hne (List.length_eq_zero.mp hl))
  rw [mean, sum_of_all_eq l c h, mul_comm, mul_div_assoc, div_self hn, mul_one]

lemma sampleVar_of_all_eq (l : List ℚ) (c : ℚ) (h : ∀ x ∈ l, x = c) :
    sampleVar l = 0 := by
  cases l with
  | nil => simp [sampleVar]
  | cons x xs =>
    have hm : mean (x :: xs) = c := mean_of_all_eq _ c (by simp) h
    rw [sampleVar]
    have hz : ((x :: xs).map (fun y => (y - mean (x :: xs)) ^ 2)).sum = 0 := by
      apply List.sum_eq_zero
      intro y hy
      rw [List.mem_map] at hy
      obtain ⟨z, hz, he⟩ := hy
      rw [← he, h z hz, hm]
      ring
    rw [hz, zero_div]

/-- C7 counterexample: on the constant two-observation series
[0.1, 0.1] the code's Sharpe expression divides a positive mean excess
return by a zero standard deviation, producing +inf - not NaN and not
a raised error, contradicting "the result is never infinity". -/
theorem sharpe_unguarded_counterexample :
    sharpe_float_class [1/10, 1/10] default_risk_free_rate = FloatClass.posInf ∧
      FloatClass.posInf ≠ FloatClass.nan := by
  constructor
  · norm_num [sharpe_float_class, sampleVar, mean, default_risk_free_rate]
  · decide

/-- C7 (amended): with fewer than 2 observations the Sharpe expression
evaluates to NaN (the documented degenerate result); but with at least 2
observations of a constant series the unguarded division yields +inf when
the constant exceeds risk_free_rate/252, -inf when it is below, and NaN
only when they are exactly equal - no error is raised. -/
theorem sharpe_degenerate_classified (returns : List ℚ) (risk_free_rate : ℚ) :
    (returns.length < 2 → sharpe_float_class returns risk_free_rate = FloatClass.nan) ∧
      ∀ c : ℚ, 2 ≤ returns.length → (∀ x ∈ returns, x = c) →
        sharpe_float_class returns risk_free_rate =
          (if risk_free_rate / 252 < c then FloatClass.posInf
            else if c < risk_free_rate / 252 then FloatClass.negInf
            else FloatClass.nan) := by
  constructor
  · intro h
    rw [sharpe_float_class, if_pos h]
  · intro c h2 hc
    have hne : returns ≠ [] := by
      intro he
      rw [he] at h2
      simp at h2
    have hv : sampleVar returns = 0 := sampleVar_of_all_eq _ c hc
    have hm : mean (returns.map (fun x => x - risk_free_rate / 252)) =
        c - risk_free_rate / 252 := by
      rw [mean_map_sub_const _ _ hne, mean_of_all_eq _ c hne hc]
    rw [sharpe_float_class, if_neg (by omega), if_pos hv]
    simp only [hm, sub_pos, sub_neg]

/-- Witness for C7's amended theorem on the constant series [0.1, 0.1]. -/
theorem sharpe_degenerate_classified_witness :
    2 ≤ ([1/10, 1/10] : List ℚ).length ∧
      (∀ x ∈ ([1/10, 1/10] : List ℚ), x = 1/10) ∧
      sharpe_float_class [1/10, 1/10] default_risk_free_rate =
        (if default_risk_free_rate / 252 < (1/10 : ℚ) then FloatClass.posInf
          else if (1/10 : ℚ) < default_risk_free_rate / 252 then FloatClass.negInf
          else FloatClass.nan) :=
  ⟨by simp, by simp,
    (sharpe_degenerate_classified [1/10, 1/10] default_risk_free_rate).2 (1/10)
      (by simp) (by simp)⟩

/-! ### PriceSeries normalization (src/app.py lines 68-76, C6)

The provider (yf.download) is abstracted per the spec's Market Data
Provider interface: a partial mapping from ticker to its ordered closing
prices, with tickers lacking data absent from the mapping.  The loop
adds `close_prices.pct_change()` as a column for each requested ticker
present in the response; `pct_change` keeps the length of the series,
with an undefined (NaN, modelled as `none`) first element. -/

/-- pandas `Series.pct_change()`: same length as the input, NaN first
element, then consecutive simple returns `price[t]/price[t-1] - 1`. -/
def pct_change (prices : List ℚ) : List (Option ℚ) :=
  match prices with
  | [] => []
  | _ :: _ =>
    none :: List.zipWith (fun prev cur => some (cur / prev - 1)) prices prices.tail

/-- The `returns` frame built by the loop in src/app.py lines 68-72: one
column per requested ticker present in the provider's response. -/
def compute_returns (requested : List String) (provider : String → Option (List ℚ)) :
    List (String × List (Option ℚ)) :=
  requested.filterMap (fun t => (provider t).map (fun ps => (t, pct_change ps)))

/-- pandas `DataFrame.empty` for the `returns` frame (line 74): true when
the frame has no columns or no rows (all column series empty). -/
def returns_frame_empty (cols : List (String × List (Option ℚ))) : Bool :=
  cols.isEmpty || cols.all (fun c => c.2.isEmpty)

lemma pct_change_ne_nil (ps : List ℚ) (h : ps ≠ []) : pct_change ps ≠ [] := by
  cases ps with
  | nil => exact absurd rfl h
  | cons p ps' => simp [pct_change]

/-- C6: a requested ticker appears in the returns mapping exactly when the
provider's response contains it (absent tickers are silently dropped), and
the `NoDataError` branch (`returns.empty`) fires exactly when the mapping
is empty - given the provider interface contract that a ticker present in
the response has at least one price point. -/
theorem compute_returns_drop_and_empty (requested : List String)
    (provider : String → Option (List ℚ))
    (hp : ∀ t ps, provider t = some ps → ps ≠ []) :
    (∀ t : String, (∃ s, (t, s) ∈ compute_returns requested provider) ↔
        t ∈ requested ∧ ∃ ps, provider t = some ps) ∧
      (returns_frame_empty (compute_returns requested provider) = true ↔
        compute_returns requested provider = []) := by
  constructor
  · intro t
    constructor
    · rintro ⟨s, hs⟩
      rw [compute_returns, List.mem_filterMap] at hs
      obtain ⟨a, ha, he⟩ := hs
      cases hpa : provider a with
      | none => rw [hpa] at he; simp at he
      | some ps =>
        rw [hpa] at he
        simp only [Option.map_some', Option.some.injEq, Prod.mk.injEq] at he
        obtain ⟨h1, _⟩ := he
        subst h1
        exact ⟨ha, ps, hpa⟩
    · rintro ⟨ht, ps, hps⟩
      refine ⟨pct_change ps, ?_⟩
      rw [compute_returns, List.mem_filterMap]
      exact ⟨t, ht, by rw [hps]; rfl⟩
  · constructor
    · intro hb
      cases hcm : compute_returns requested provider with
      | nil => rfl
      | cons c cs =>
        exfalso
        rw [hcm, returns_frame_empty] at hb
        simp only [List.isEmpty_cons, Bool.false_or, List.all_cons, Bool.and_eq_true,
          List.isEmpty_eq_true] at hb
        have hmem : c ∈ compute_returns requested provider := by
          rw [hcm]
          exact List.mem_cons_self _ _
        rw [compute_returns, List.mem_filterMap] at hmem
        obtain ⟨a, _, he⟩ := hmem
        cases hpa : provider a with
        | none => rw [hpa] at he; simp at he
        | some ps =>
          rw [hpa] at he
          simp only [Option.map_some', Option.some.injEq] at he
          have hc2 : c.2 = pct_change ps := by rw [← he]
          exact pct_change_ne_nil ps (hp a ps hpa) (by rw [← hc2]; exact hb.1)
    · intro he
      rw [he]
      rfl

/-- Witness for C6 with one requested ticker whose response is the price
series [1, 2]. -/
theorem compute_returns_drop_and_empty_witness :
    (∀ t ps, (fun _ : String => some ([1, 2] : List ℚ)) t = some ps → ps ≠ []) ∧
      ((∀ t : String,
          (∃ s, (t, s) ∈ compute_returns ["A"] (fun _ => some ([1, 2] : List ℚ))) ↔
            t ∈ ["A"] ∧ ∃ ps, (fun _ : String => some ([1, 2] : List ℚ)) t = some ps) ∧
        (returns_frame_empty (compute_returns ["A"] (fun _ => some ([1, 2] : List ℚ))) = true ↔
          compute_returns ["A"] (fun _ => some ([1, 2] : List ℚ)) = [])) :=
  ⟨by intro t ps h; injection h with h; subst h; simp,
    compute_returns_drop_and_empty ["A"] (fun _ => some ([1, 2] : List ℚ))
      (by intro t ps h; injection h with h; subst h; simp)⟩

/-! ### Top-K ranking of holdings by a fundamental metric (src/app.py
lines 136-139, C8)

`portfolio_fundamentals[['Ticker', metric]].sort_values(metric,
ascending=False).head(5)`: rows are (ticker, metric value) pairs, the
metric value possibly missing (NaN after the left merge, modelled as
`none`).  `sort_values` sorts on the metric column only - descending,
NaNs placed last (`na_position='last'`) - and applies no secondary key;
it is modelled as a stable sort, which is what numpy's sort performs on
the short arrays at issue, and in any case no ticker tie-break exists
in the code. -/

/-- Ordering on metric cells: `none` (NaN) counts as smallest, so that it
sorts last under the descending order. -/
def keyLe : Option ℚ → Option ℚ → Bool
  | none, _ => true
  | some _, none => false
  | some x, some y => decide (x ≤ y)

/-- `rowGE a b`: row `a` sorts no later than row `b` under
`sort_values(metric, ascending=False, na_position='last')`. -/
def rowGE (a b : String × Option ℚ) : Prop := keyLe b.2 a.2 = true

instance : DecidableRel rowGE :=
  fun a b => inferInstanceAs (Decidable (keyLe b.2 a.2 = true))

lemma keyLe_refl (x : Option ℚ) : keyLe x x = true := by
  cases x <;> simp [keyLe]

lemma keyLe_total (x y : Option ℚ) : keyLe x y = true ∨ keyLe y x = true := by
  cases x <;> cases y <;> simp [keyLe]
  exact le_total _ _

lemma keyLe_trans {x y z : Option ℚ} (h1 : keyLe x y = true) (h2 : keyLe y z = true) :
    keyLe x z = true := by
  cases x <;> cases y <;> cases z <;> simp_all [keyLe]
  exact le_trans h1 h2

instance : IsTotal (String × Option ℚ) rowGE :=
  ⟨fun a b => keyLe_total b.2 a.2⟩

instance : IsTrans (String × Option ℚ) rowGE :=
  ⟨fun _ _ _ h1 h2 => keyLe_trans h2 h1⟩

/-- The sorted frame of line 136-137 (stable descending metric sort). -/
def sort_values_desc (rows : List (String × Option ℚ)) : List (String × Option ℚ) :=
  rows.insertionSort rowGE

/-- `.head(k)` of the sorted frame; src/app.py uses k = 5. -/
def top_k (k : ℕ) (rows : List (String × Option ℚ)) : List (String × Option ℚ) :=
  (sort_values_desc rows).take k

/-- Lexicographic (code-point) comparison of ticker character lists;
spec-side helper for the claimed tie-break. -/
def charListLeb : List Char → List Char → Bool
  | [], _ => true
  | _ :: _, [] => false
  | a :: as, b :: bs =>
    if a.toNat < b.toNat then true
    else if b.toNat < a.toNat then false
    else charListLeb as bs

/-- The ordering the claim asserts, following the spec's words only:
metric descending with ties broken by ticker ascending (lexicographic).
The code does not implement this tie-break. -/
def specRowLe (a b : String × Option ℚ) : Prop :=
  (if a.2 = b.2 then charListLeb a.1.data b.1.data else keyLe b.2 a.2) = true

instance : DecidableRel specRowLe :=
  fun a b =>
    inferInstanceAs
      (Decidable ((if a.2 = b.2 then charListLeb a.1.data b.1.data else keyLe b.2 a.2) = true))

/-- Spec-claimed top-K: sorted by metric descending with ticker-ascending
tie-break. -/
def top_k_spec (k : ℕ) (rows : List (String × Option ℚ)) : List (String × Option ℚ) :=
  (rows.insertionSort specRowLe).take k

/-- C8 counterexample: on two holdings with equal metric values the code
returns them in their original order ("BBB" before "AAA"), not in the
ticker-ascending order the claim asserts. -/
theorem top_k_tiebreak_counterexample :
    top_k 5 [("BBB", some 1), ("AAA", some 1)] = [("BBB", some 1), ("AAA", some 1)] ∧
      top_k 5 [("BBB", some 1), ("AAA", some 1)] ≠
        top_k_spec 5 [("BBB", some 1), ("AAA", some 1)] := by
  constructor <;> decide

lemma filter_orderedInsert (q : Option ℚ) (a : String × Option ℚ)
    (l : List (String × Option ℚ)) :
    (List.orderedInsert rowGE a l).filter (fun r => decide (r.2 = q)) =
      if a.2 = q then a :: l.filter (fun r => decide (r.2 = q))
      else l.filter (fun r => decide (r.2 = q)) := by
  induction l with
  | nil => by_cases ha : a.2 = q <;> simp [List.orderedInsert, ha]
  | cons b bs ih =>
    rw [List.orderedInsert]
    by_cases hr : rowGE a b
    · rw [if_pos hr]
      by_cases ha : a.2 = q <;> simp [List.filter_cons, ha]
    · rw [if_neg hr]
      have hne : b.2 ≠ a.2 := by
        intro hbe
        apply hr
        rw [rowGE, hbe]
        exact keyLe_refl a.2
      rw [List.filter_cons, List.filter_cons, ih]
      by_cases ha : a.2 = q
      · have hb : ¬(b.2 = q) := fun hbq => hne (hbq.trans ha.symm)
        simp [ha, hb]
      · by_cases hb : b.2 = q <;> simp [ha, hb]

lemma filter_insertionSort (q : Option ℚ) (l : List (String × Option ℚ)) :
    (l.insertionSort rowGE).filter (fun r => decide (r.2 = q)) =
      l.filter (fun r => decide (r.2 = q)) := by
  induction l with
  | nil => rfl
  | cons a as ih =>
    rw [List.insertionSort, filter_orderedInsert, ih]
    by_cases ha : a.2 = q <;> simp [ha, List.filter_cons]

/-- C8 (amended): top-K returns the first k holdings of the frame sorted
by the metric descending (missing metrics last); when k is at least the
number of holdings, all of them are returned (a permutation of the
portfolio); ties are NOT broken by ticker - rows with equal metric values
keep their original relative order (stability, stated via `filter`). -/
theorem top_k_stable_descending (rows : List (String × Option ℚ)) (k : ℕ) :
    (top_k k rows).Sorted rowGE ∧
      (top_k k rows).length = min k rows.length ∧
      (rows.length ≤ k → (top_k k rows).Perm rows) ∧
      ∀ q : Option ℚ,
        (sort_values_desc rows).filter (fun r => decide (r.2 = q)) =
          rows.filter (fun r => decide (r.2 = q)) := by
  refine ⟨?_, ?_, ?_, fun q => filter_insertionSort q rows⟩
  · exact List.Pairwise.sublist (List.take_sublist k _)
      (List.sorted_insertionSort rowGE rows)
  · rw [top_k, List.length_take, sort_values_desc,
      (List.perm_insertionSort rowGE rows).length_eq]
  · intro hk
    rw [top_k, List.take_of_length_le]
    · exact List.perm_insertionSort rowGE rows
    · rw [sort_values_desc, (List.perm_insertionSort rowGE rows).length_eq]
      exact hk

/-- Witness for C8's amended theorem: k = 5 over 3 holdings returns all
three, and the tied-metric filter at value 1 is preserved. -/
theorem top_k_stable_descending_witness :
    (top_k 5 [("A", some 3), ("B", some 1), ("C", some 2)]).Sorted rowGE ∧
      (top_k 5 [("A", some 3), ("B", some 1), ("C", some 2)]).length =
        min 5 ([("A", some 3), ("B", some 1), ("C", some 2)] :
          List (String × Option ℚ)).length ∧
      (top_k 5 [("A", some 3), ("B", some 1), ("C", some 2)]).Perm
        [("A", some 3), ("B", some 1), ("C", some 2)] ∧
      (sort_values_desc [("A", some 3), ("B", some 1), ("C", some 2)]).filter
          (fun r => decide (r.2 = some 1)) =
        ([("A", some 3), ("B", some 1), ("C", some 2)] :
          List (String × Option ℚ)).filter (fun r => decide (r.2 = some 1)) :=
  ⟨(top_k_stable_descending [("A", some 3), ("B", some 1), ("C", some 2)] 5).1,
    (top_k_stable_descending [("A", some 3), ("B", some 1), ("C", some 2)] 5).2.1,
    (top_k_stable_descending [("A", some 3), ("B", some 1), ("C", some 2)] 5).2.2.1
      (by decide),
    (top_k_stable_descending [("A", some 3), ("B", some 1), ("C", some 2)] 5).2.2.2
      (some 1)⟩

/-! ### Fundamentals aggregation (src/app.py lines 111-131, C9-C10)

After the left merge each holding carries its ticker, its share count and
the (possibly missing, NaN = `none`) value of the selected metric.
Line 120: `Weight = Shares / Shares.sum()` - the denominator ranges over
ALL holdings.  Line 131: `(metric * Weight).sum()` - pandas `.sum()`
skips NaN products, i.e. holdings with a missing metric contribute 0 to
the numerator while still counting in the weight denominator.  Share
counts are integers in the code; they are embedded as rationals since
they only enter ratio arithmetic. -/

/-- One row of the merged `portfolio_fundamentals` frame. -/
structure FundRow where
  ticker : String
  shares : ℚ
  metricVal : Option ℚ
  deriving DecidableEq

/-- `portfolio_fundamentals['Shares'].sum()` (line 120). -/
def total_shares (l : List FundRow) : ℚ := (l.map FundRow.shares).sum

/-- The `Weight` column (line 120): shares over the sum of all shares. -/
def row_weight (l : List FundRow) (r : FundRow) : ℚ := r.shares / total_shares l

/-- `avg_metric` (line 131): `(metric * Weight).sum()` with NaN products
skipped by pandas, i.e. contributing 0. -/
def weighted_metric (l : List FundRow) : ℚ :=
  (l.map (fun r =>
    match r.metricVal with
    | some m => m * row_weight l r
    | none => 0)).sum

/-- A holding's metric value times its share count (0 when missing);
used to state the numerator of the weighted metric. -/
def metric_shares (r : FundRow) : ℚ :=
  match r.metricVal with
  | some m => m * r.shares
  | none => 0

/-- The alternative semantics the spec discusses, following the spec's
words only: holdings with a missing metric are excluded from numerator
AND denominator (weights renormalized over the non-null holdings).  The
code does not compute this. -/
def weighted_metric_renorm (l : List FundRow) : ℚ :=
  ((l.filter (fun r => r.metricVal.isSome)).map (fun r =>
    match r.metricVal with
    | some m => m * (r.shares / total_shares (l.filter (fun r2 => r2.metricVal.isSome)))
    | none => 0)).sum

lemma sum_div_list (xs : List ℚ) (c : ℚ) : (xs.map (· / c)).sum = xs.sum / c := by
  induction xs with
  | nil => simp
  | cons x l ih => simp [ih, add_div]

lemma sum_match_mul (l : List FundRow) (c : ℚ) :
    (l.map (fun r =>
      match r.metricVal with
      | some m => m * c
      | none => 0)).sum = (l.filterMap FundRow.metricVal).sum * c := by
  induction l with
  | nil => simp
  | cons a as ih =>
    cases ha : a.metricVal with
    | none => simp [List.filterMap_cons, ha, ih]
    | some m => simp [List.filterMap_cons, ha, ih, add_mul]

/-- C9 counterexample: with equal shares but one missing metric value, the
weighted metric (10 × 1/2 = 5) is NOT the arithmetic mean over the
holdings with non-null metric values (10/1 = 10): the missing-metric
holding still inflates the weight denominator. -/
theorem equal_shares_mean_counterexample :
    (∀ r ∈ ([⟨"A", 1, some 10⟩, ⟨"B", 1, none⟩] : List FundRow), r.shares = 1) ∧
      weighted_metric [⟨"A", 1, some 10⟩, ⟨"B", 1, none⟩] ≠
        (([⟨"A", 1, some 10⟩, ⟨"B", 1, none⟩] : List FundRow).filterMap
            FundRow.metricVal).sum /
          ((([⟨"A", 1, some 10⟩, ⟨"B", 1, none⟩] : List FundRow).filterMap
            FundRow.metricVal).length : ℚ) := by
  constructor
  · decide
  · norm_num [weighted_metric, row_weight, total_shares, List.filterMap_cons]

/-- C9 (amended): `weighted_metric` is invariant under permutation of the
holdings; and when every holding has the same nonzero share count it
equals the sum of the non-null metric values divided by the TOTAL number
of holdings (which is the arithmetic mean over the non-null holdings only
when no metric value is missing). -/
theorem weighted_metric_perm_and_equal_shares :
    (∀ l l' : List FundRow, l.Perm l' → weighted_metric l = weighted_metric l') ∧
      ∀ (l : List FundRow) (s : ℚ), s ≠ 0 → (∀ r ∈ l, r.shares = s) →
        weighted_metric l = (l.filterMap FundRow.metricVal).sum / (l.length : ℚ) := by
  constructor
  · intro l l' hp
    have ht : total_shares l = total_shares l' := (hp.map FundRow.shares).sum_eq
    have h1 := (hp.map (fun r =>
      match r.metricVal with
      | some m => m * row_weight l r
      | none => 0)).sum_eq
    rw [weighted_metric, weighted_metric, h1]
    apply congrArg List.sum
    apply List.map_congr_left
    intro r _
    cases hrm : r.metricVal <;> simp [row_weight, ht]
  · intro l s hs hls
    cases hl : l with
    | nil => simp [weighted_metric]
    | cons a as =>
      rw [← hl]
      have hlenq : (l.length : ℚ) ≠ 0 := by
        rw [hl]
        exact Nat.cast_ne_zero.mpr (by simp)
      have htot : total_shares l = (l.length : ℚ) * s := by
        rw [total_shares,
          sum_of_all_eq (l.map FundRow.shares) s
            (fun x hx => by
              rw [List.mem_map] at hx
              obtain ⟨r, hr, he⟩ := hx
              rw [← he, hls r hr]),
          List.length_map]
      have hmap : l.map (fun r =>
            match r.metricVal with
            | some m => m * row_weight l r
            | none => 0) =
          l.map (fun r =>
            match r.metricVal with
            | some m => m * (1 / (l.length : ℚ))
            | none => 0) := by
        apply List.map_congr_left
        intro r hr
        cases hrm : r.metricVal with
        | none => rfl
        | some m =>
          simp only [row_weight, hls r hr, htot]
          congr 1
          rw [eq_div_iff hlenq]
          field_simp
          ring
      rw [weighted_metric, hmap, sum_match_mul, mul_one_div]

/-- Witness for C9's amended theorem: equal shares 2 with no missing
metric gives the plain mean (10 + 4)/2 = 7, and a two-element swap leaves
the weighted metric unchanged. -/
theorem weighted_metric_perm_and_equal_shares_witness :
    weighted_metric [⟨"A", 2, some 10⟩, ⟨"B", 2, some 4⟩] =
      (([⟨"A", 2, some 10⟩, ⟨"B", 2, some 4⟩] : List FundRow).filterMap
          FundRow.metricVal).sum /
        ((([⟨"A", 2, some 10⟩, ⟨"B", 2, some 4⟩] : List FundRow)).length : ℚ) ∧
      weighted_metric [⟨"A", 2, some 10⟩, ⟨"B", 2, some 4⟩] =
        weighted_metric [⟨"B", 2, some 4⟩, ⟨"A", 2, some 10⟩] :=
  ⟨weighted_metric_perm_and_equal_shares.2 [⟨"A", 2, some 10⟩, ⟨"B", 2, some 4⟩] 2
      (by norm_num) (by decide),
    weighted_metric_perm_and_equal_shares.1 _ _ (List.Perm.swap _ _ _)⟩

/-- C10: each weight is shares over the sum of ALL shares, so the weights
sum to 1 over the whole portfolio; holdings with a missing metric are
excluded only from the numerator (no renormalization of the remaining
weights), so the weighted metric is the sum of metric × shares over
non-null holdings divided by the total shares of ALL holdings - which
differs from the renormalizing alternative already on a two-holding
example. -/
theorem weighted_metric_original_denominators (l : List FundRow)
    (hs : total_shares l ≠ 0) :
    (l.map (row_weight l)).sum = 1 ∧
      weighted_metric l = (l.map metric_shares).sum / total_shares l ∧
      weighted_metric [⟨"A", 1, some 10⟩, ⟨"B", 3, none⟩] ≠
        weighted_metric_renorm [⟨"A", 1, some 10⟩, ⟨"B", 3, none⟩] := by
  refine ⟨?_, ?_, ?_⟩
  · have hw : l.map (row_weight l) = (l.map FundRow.shares).map (· / total_shares l) := by
      rw [List.map_map]
      rfl
    rw [hw, sum_div_list]
    exact div_self hs
  · have hm : l.map (fun r =>
        match r.metricVal with
        | some m => m * row_weight l r
        | none => 0) = (l.map metric_shares).map (· / total_shares l) := by
      rw [List.map_map]
      apply List.map_congr_left
      intro r _
      cases hrm : r.metricVal with
      | none => simp [metric_shares, hrm]
      | some m => simp [metric_shares, hrm, row_weight, mul_div_assoc]
    rw [weighted_metric, hm, sum_div_list]
  · norm_num [weighted_metric, weighted_metric_renorm, row_weight, total_shares]

/-- Witness for C10 on a concrete two-holding portfolio. -/
theorem weighted_metric_original_denominators_witness :
    total_shares [⟨"A", 1, some 10⟩, ⟨"B", 3, none⟩] ≠ 0 ∧
      ((([⟨"A", 1, some 10⟩, ⟨"B", 3, none⟩] : List FundRow).map
          (row_weight [⟨"A", 1, some 10⟩, ⟨"B", 3, none⟩])).sum = 1 ∧
        weighted_metric [⟨"A", 1, some 10⟩, ⟨"B", 3, none⟩] =
          (([⟨"A", 1, some 10⟩, ⟨"B", 3, none⟩] : List FundRow).map
            metric_shares).sum / total_shares [⟨"A", 1, some 10⟩, ⟨"B", 3, none⟩] ∧
        weighted_metric [⟨"A", 1, some 10⟩, ⟨"B", 3, none⟩] ≠
          weighted_metric_renorm [⟨"A", 1, some 10⟩, ⟨"B", 3, none⟩]) :=
  ⟨by norm_num [total_shares],
    weighted_metric_original_denominators [⟨"A", 1, some 10⟩, ⟨"B", 3, none⟩]
      (by norm_num [total_shares])⟩

/-! ### Portfolio construction (src/app.py lines 40-45, C5)

`np.random.seed(42)` resets the process-wide generator, after which the
code draws, in order: the sampled tickers (`df['Ticker Symbol'].sample`),
the share counts (`np.random.randint(100, 10000, size=n)`), and the entry
prices (`np.random.uniform(5, 300, size=n).round(2)`).  numpy's global
Mersenne-Twister generator is modelled abstractly: any type of generator
states with deterministic transition functions for seeding and for each
kind of draw.  The determinism theorem quantifies over every such model,
so it covers the concrete numpy generator.  `sample` draws rows without
replacement; the `% max 1` guard and the `getD` default merely totalize
the function and are never exercised when the drawn index is in range
(numpy raises before this code runs when n exceeds the universe, a case
outside this claim). -/

/-- One row of the `portfolio` frame (line 41-45). -/
structure Holding where
  ticker : String
  shares : ℕ
  entry_price : ℚ
  deriving DecidableEq

/-- Abstract deterministic model of the global numpy random generator:
`seedState` models `np.random.seed`, `pick` the row choice of
`DataFrame.sample`, `randint` a draw of `np.random.randint(lo, hi)`, and
`uniform` a draw of `np.random.uniform(lo, hi)`. -/
structure RngModel (S : Type) where
  seedState : ℕ → S
  pick : S → ℕ → ℕ × S
  randint : S → ℕ → ℕ → ℕ × S
  uniform : S → ℚ → ℚ → ℚ × S

/-- `n` successive draws from the generator (a vectorized numpy call). -/
def drawList {S α : Type} (draw : S → α × S) : ℕ → S → List α × S
  | 0, g => ([], g)
  | n + 1, g =>
    let p := draw g
    let rest := drawList draw n p.2
    (p.1 :: rest.1, rest.2)

/-- Sampling `n` tickers without replacement from the pool
(`df['Ticker Symbol'].sample(num_assets)`). -/
def sampleTickers {S : Type} (pick : S → ℕ → ℕ × S) :
    ℕ → List String → S → List String × S
  | 0, _, g => ([], g)
  | n + 1, pool, g =>
    let p := pick g pool.length
    let i := p.1 % max 1 pool.length
    let rest := sampleTickers pick n (pool.eraseIdx i) p.2
    (pool.getD i "" :: rest.1, rest.2)

/-- numpy `.round(2)`: round to 2 decimal places, half to even. -/
def round2 (q : ℚ) : ℚ :=
  let k : ℤ := ⌊q * 100⌋
  let frac : ℚ := q * 100 - (k : ℚ)
  let r : ℤ :=
    if 1 / 2 < frac then k + 1
    else if frac < 1 / 2 then k
    else if k % 2 = 0 then k else k + 1
  (r : ℚ) / 100

/-- The portfolio construction of src/app.py lines 40-45, starting from
the freshly seeded generator state. -/
def build_portfolio {S : Type} (R : RngModel S) (univ : List String)
    (n : ℕ) (seed : ℕ) : List Holding :=
  let g0 := R.seedState seed
  let ts := sampleTickers R.pick n univ g0
  let sh := drawList (fun g => R.randint g 100 10000) n ts.2
  let pr := drawList (fun g => R.uniform g 5 300) n sh.2
  List.zipWith3 (fun t s p => Holding.mk t s (round2 p)) ts.1 sh.1 pr.1

/-- A full run of the builder at a pre-existing global generator state
`g`: `np.random.seed(seed)` (line 40) overwrites `g` before any draw, so
the run never reads it. -/
def run_builder {S : Type} (R : RngModel S) (univ : List String)
    (n : ℕ) (seed : ℕ) (g : S) : List Holding :=
  build_portfolio R univ n seed

lemma drawList_mem {S α : Type} (draw : S → α × S) (P : α → Prop)
    (hd : ∀ g, P (draw g).1) :
    ∀ (n : ℕ) (g : S), ∀ x ∈ (drawList draw n g).1, P x := by
  intro n
  induction n with
  | zero => intro g x hx; simp [drawList] at hx
  | succ n ih =>
    intro g x hx
    simp only [drawList, List.mem_cons] at hx
    rcases hx with rfl | hx
    · exact hd g
    · exact ih _ x hx

lemma mem_zipWith3_build :
    ∀ (ts : List String) (ss : List ℕ) (ps : List ℚ) (h : Holding),
      h ∈ List.zipWith3 (fun t s p => Holding.mk t s (round2 p)) ts ss ps →
        h.shares ∈ ss ∧ ∃ p ∈ ps, h.entry_price = round2 p := by
  intro ts
  induction ts with
  | nil => intro ss ps h hh; simp [List.zipWith3] at hh
  | cons t ts' ih =>
    intro ss ps h hh
    cases ss with
    | nil => simp [List.zipWith3] at hh
    | cons s ss' =>
      cases ps with
      | nil => simp [List.zipWith3] at hh
      | cons p ps' =>
        rw [List.zipWith3] at hh
        rcases List.mem_cons.mp hh with rfl | h2
        · exact ⟨List.mem_cons_self _ _, p, List.mem_cons_self _ _, rfl⟩
        · obtain ⟨h1, p', hp', he⟩ := ih ss' ps' h h2
          exact ⟨List.mem_cons_of_mem _ h1, p', List.mem_cons_of_mem _ hp', he⟩

/-- C5: for a fixed universe, target count and seed, any two runs of the
portfolio builder - from arbitrary prior global generator states - produce
the identical portfolio, because the seed call resets the generator; and
(under the range contracts of the integer/uniform draws) every holding's
share count lies in [100, 10000) and every entry price is a uniform draw
from [5, 300) rounded to 2 decimals. -/
theorem portfolio_builder_deterministic {S : Type} (R : RngModel S)
    (univ : List String) (n seed : ℕ) (g₁ g₂ : S) :
    run_builder R univ n seed g₁ = run_builder R univ n seed g₂ ∧
      ((∀ g, 100 ≤ (R.randint g 100 10000).1 ∧ (R.randint g 100 10000).1 < 10000) →
        ∀ h ∈ run_builder R univ n seed g₁,
          100 ≤ h.shares ∧ h.shares < 10000) ∧
      ((∀ g, 5 ≤ (R.uniform g 5 300).1 ∧ (R.uniform g 5 300).1 < 300) →
        ∀ h ∈ run_builder R univ n seed g₁,
          ∃ q : ℚ, 5 ≤ q ∧ q < 300 ∧ h.entry_price = round2 q) := by
  refine ⟨rfl, ?_, ?_⟩
  · intro hr h hh
    rw [run_builder, build_portfolio] at hh
    obtain ⟨h1, _⟩ := mem_zipWith3_build _ _ _ h hh
    exact drawList_mem _ (fun x => 100 ≤ x ∧ x < 10000) hr n _ h.shares h1
  · intro hu h hh
    rw [run_builder, build_portfolio] at hh
    obtain ⟨_, p, hp, he⟩ := mem_zipWith3_build _ _ _ h hh
    have hq := drawList_mem _ (fun q => 5 ≤ q ∧ q < 300) hu n _ p hp
    exact ⟨p, hq.1, hq.2, he⟩

/-- The degenerate deterministic generator used to witness C5. -/
def unitRng : RngModel Unit where
  seedState := fun _ => ()
  pick := fun _ _ => (0, ())
  randint := fun _ lo _ => (lo, ())
  uniform := fun _ lo _ => (lo, ())

/-- Witness for C5 at a concrete two-ticker universe, n = 1, seed = 42. -/
theorem portfolio_builder_deterministic_witness :
    run_builder unitRng ["A", "B"] 1 42 () = run_builder unitRng ["A", "B"] 1 42 () ∧
      (100 ≤ (Holding.mk "A" 100 (round2 5)).shares ∧
        (Holding.mk "A" 100 (round2 5)).shares < 10000) ∧
      ∃ q : ℚ, 5 ≤ q ∧ q < 300 ∧ (Holding.mk "A" 100 (round2 5)).entry_price = round2 q := by
  have hmem : Holding.mk "A" 100 (round2 5) ∈ run_builder unitRng ["A", "B"] 1 42 () :=
    List.mem_singleton.mpr rfl
  have hr : ∀ g : Unit, 100 ≤ (unitRng.randint g 100 10000).1 ∧
      (unitRng.randint g 100 10000).1 < 10000 :=
    fun _ => ⟨le_refl _, by norm_num [unitRng]⟩
  have hu : ∀ g : Unit, 5 ≤ (unitRng.uniform g 5 300).1 ∧
      (unitRng.uniform g 5 300).1 < 300 :=
    fun _ => ⟨le_refl _, by norm_num [unitRng]⟩
  exact ⟨(portfolio_builder_deterministic unitRng ["A", "B"] 1 42 () ()).1,
    (portfolio_builder_deterministic unitRng ["A", "B"] 1 42 () ()).2.1 hr _ hmem,
    (portfolio_builder_deterministic unitRng ["A", "B"] 1 42 () ()).2.2 hu _ hmem⟩

end FinSight
